import Mathlib

/-!
# Verification of the blacktop/lzss compression core

Shallow embedding of `lzss.go` (`Compress`, `Decompress`, `insertNode`,
`deleteNode`, `initState`) with `% 256` exactly at the Go `byte(...)`
conversion sites.  The Go arrays (`lchild`, `rchild`, `parent`, `textBuf`)
are modelled as total functions `Nat → Nat` with pointwise update; every
index used by the code is within the Go array bounds, so the two views
agree on all reachable states.  The 17-byte `codeBuf` is kept as a list.
Loops whose termination depends on data-structure well-formedness (the
tree walks) take a fuel argument large enough for any well-formed tree;
bounded `for` loops recurse on their counters.
-/

namespace LZSS

/-- `n` from the source: size of the ring buffer (a power of 2). -/
def n : Nat := 4096

/-- `f` from the source: upper limit for `matchLength`. -/
def f : Nat := 18

/-- `threshold` from the source: encode a (position, length) pair only for
matches longer than this. -/
def threshold : Nat := 2

/-- `nil` from the source (the Go file shadows the builtin): sentinel index
for absent tree links, equal to `n`. -/
def nilIdx : Nat := n

/-- Pointwise update of a Go array modelled as a function. -/
def upd (a : Nat → Nat) (i v : Nat) : Nat → Nat :=
  fun j => if j = i then v else a j

/-- Read index `i` of a Go array modelled as a list (used for `codeBuf`). -/
def getI (l : List Nat) (i : Nat) : Nat := l.getD i 0

/-- Write index `i` of a Go array modelled as a list (used for `codeBuf`). -/
def setI (l : List Nat) (i : Nat) (v : Nat) : List Nat := l.set i v

/-- `encodeState` from the source: the three parallel tree-link arrays, the
text (ring) buffer with its `f-1`-byte mirror tail, and the match state. -/
structure EncodeState where
  lchild : Nat → Nat
  rchild : Nat → Nat
  parent : Nat → Nat
  textBuf : Nat → Nat
  matchPosition : Nat
  matchLength : Nat

/-- `initState` from the source: arrays cleared, first `n-f` buffer cells set
to the space byte `0x20`, the 256 tree roots `n+1 .. n+256` set to `nil`, and
`parent` of every position below `n` set to `nil`. -/
def initState : EncodeState :=
  { lchild := fun _ => 0
  , rchild := fun j => if n + 1 ≤ j ∧ j ≤ n + 256 then nilIdx else 0
  , parent := fun j => if j < n then nilIdx else 0
  , textBuf := fun j => if j < n - f then 32 else 0
  , matchPosition := 0
  , matchLength := 0 }

/-- The inner comparison loop of `insertNode`:
`for i = 1; i < f; i++ { if cmp = int(key[i]) - int(textBuf[p+i]); cmp != 0 { break } }`.
Returns the pair `(cmp, i)` at loop exit.  The first argument counts the
remaining iterations (at most `f`). -/
def keyCmpGo (sp : EncodeState) (r p : Nat) : Nat → Nat → Int × Nat
  | 0, i => (0, i)
  | left + 1, i =>
    if i < f then
      let c : Int := (sp.textBuf (r + i) : Int) - (sp.textBuf (p + i) : Int)
      if c ≠ 0 then (c, i) else keyCmpGo sp r p left (i + 1)
    else (0, i)

/-- Compare the `f`-byte key at `r` against the key at `p` (bytes `1..f-1`;
byte 0 is implied by the per-leading-byte tree). -/
def keyCmp (sp : EncodeState) (r p : Nat) : Int × Nat := keyCmpGo sp r p f 1

/-- Attach `r` as the right child of `p` (the `rchild[p] = r; parent[r] = p`
exit of the `insertNode` walk). -/
def attachRight (sp : EncodeState) (r p : Nat) : EncodeState :=
  { sp with rchild := upd sp.rchild p r, parent := upd sp.parent r p }

/-- Attach `r` as the left child of `p` (the `lchild[p] = r; parent[r] = p`
exit of the `insertNode` walk). -/
def attachLeft (sp : EncodeState) (r p : Nat) : EncodeState :=
  { sp with lchild := upd sp.lchild p r, parent := upd sp.parent r p }

/-- The code after `insertNode`'s walk loop: on a full `f`-byte match, `r`
replaces node `p` in the tree, adopting its parent and children.  Each
statement reads the state left by the previous one, as in the source. -/
def replaceNode (sp : EncodeState) (r p : Nat) : EncodeState :=
  let sp1 := { sp with parent := upd sp.parent r (sp.parent p) }
  let sp2 := { sp1 with lchild := upd sp1.lchild r (sp1.lchild p) }
  let sp3 := { sp2 with rchild := upd sp2.rchild r (sp2.rchild p) }
  let sp4 := { sp3 with parent := upd sp3.parent (sp3.lchild p) r }
  let sp5 := { sp4 with parent := upd sp4.parent (sp4.rchild p) r }
  let sp6 :=
    if sp5.rchild (sp5.parent p) = p then
      { sp5 with rchild := upd sp5.rchild (sp5.parent p) r }
    else
      { sp5 with lchild := upd sp5.lchild (sp5.parent p) r }
  { sp6 with parent := upd sp6.parent p nilIdx }

/-- The walk loop of `insertNode`: descend right when `cmp >= 0`, left
otherwise; attach `r` at the first absent child; otherwise compare keys,
update the best match, and break into `replaceNode` on a full-length match.
Fuel bounds the walk (any well-formed tree has depth below `n + 2`). -/
def insertNodeLoop : Nat → EncodeState → Nat → Int → Nat → EncodeState
  | 0, sp, _, _, _ => sp
  | fuel + 1, sp, r, cmp, p =>
    let next : Option Nat :=
      if 0 ≤ cmp then
        if sp.rchild p ≠ nilIdx then some (sp.rchild p) else none
      else
        if sp.lchild p ≠ nilIdx then some (sp.lchild p) else none
    match next with
    | none => if 0 ≤ cmp then attachRight sp r p else attachLeft sp r p
    | some p2 =>
      let ci := keyCmp sp r p2
      if sp.matchLength < ci.2 then
        let sp2 := { sp with matchPosition := p2, matchLength := ci.2 }
        if f ≤ sp2.matchLength then replaceNode sp2 r p2
        else insertNodeLoop fuel sp2 r ci.1 p2
      else insertNodeLoop fuel sp r ci.1 p2

/-- `insertNode` from the source: insert the `f`-byte string starting at `r`
into the tree selected by its first byte, recording the longest match found
in `matchPosition`/`matchLength`. -/
def insertNode (sp : EncodeState) (r : Nat) : EncodeState :=
  let sp1 := { sp with rchild := upd sp.rchild r nilIdx
                     , lchild := upd sp.lchild r nilIdx
                     , matchLength := 0 }
  insertNodeLoop (n + 2) sp1 r 1 (n + 1 + sp1.textBuf r)

/-- The `while sp.rchild[q] != nil { q = sp.rchild[q] }` descent of
`deleteNode` (finding the in-order predecessor).  Fuel bounds the chain. -/
def rchildDescend (sp : EncodeState) : Nat → Nat → Nat
  | 0, q => q
  | fuel + 1, q =>
    if sp.rchild q ≠ nilIdx then rchildDescend sp fuel (sp.rchild q) else q

/-- `deleteNode` from the source: remove position `p` from its tree; a no-op
when `parent[p]` is `nil`.  Statements read the state left by the previous
statement, exactly as the sequential Go code does. -/
def deleteNode (sp : EncodeState) (p : Nat) : EncodeState :=
  if sp.parent p = nilIdx then sp
  else
    let sq : EncodeState × Nat :=
      if sp.rchild p = nilIdx then (sp, sp.lchild p)
      else if sp.lchild p = nilIdx then (sp, sp.rchild p)
      else
        let q0 := sp.lchild p
        let sq1 : EncodeState × Nat :=
          if sp.rchild q0 ≠ nilIdx then
            let q := rchildDescend sp (n + 2) q0
            let spA := { sp with rchild := upd sp.rchild (sp.parent q) (sp.lchild q) }
            let spB := { spA with parent := upd spA.parent (spA.lchild q) (spA.parent q) }
            let spC := { spB with lchild := upd spB.lchild q (spB.lchild p) }
            let spD := { spC with parent := upd spC.parent (spC.lchild p) q }
            (spD, q)
          else (sp, q0)
        let spE := sq1.1
        let q1 := sq1.2
        let spF := { spE with rchild := upd spE.rchild q1 (spE.rchild p) }
        let spG := { spF with parent := upd spF.parent (spF.rchild p) q1 }
        (spG, q1)
    let sp2 := sq.1
    let q := sq.2
    let spH := { sp2 with parent := upd sp2.parent q (sp2.parent p) }
    let spJ :=
      if spH.rchild (spH.parent p) = p then
        { spH with rchild := upd spH.rchild (spH.parent p) q }
      else
        { spH with lchild := upd spH.lchild (spH.parent p) q }
  { spJ with parent := upd spJ.parent p nilIdx }

/-- A token of the stream, as the encoder decides it: a literal byte or a
(position, length) reference.  Recorded as a ghost trace alongside the byte
output of `Compress`. -/
inductive Token where
  | lit : Nat → Token
  | ref : Nat → Nat → Token
deriving Repr, DecidableEq

/-- First byte of a reference token: `byte(sp.matchPosition)`. -/
def refByte0 (pos : Nat) : Nat := pos % 256

/-- Second byte of a reference token:
`byte(((sp.matchPosition >> 4) & 0xF0) | (sp.matchLength - (threshold + 1)))`. -/
def refByte1 (pos len : Nat) : Nat :=
  (((pos >>> 4) &&& 0xF0) ||| (len - (threshold + 1))) % 256

/-- The compression driver state: the tree state `sp` plus the locals of
`Compress` (`codeBuf`, `codeBufPtr`, `mask`, `s`, `r`, `dataLen`, `srcPos`),
the flushed output `dst`, and the ghost token trace `toks`. -/
structure CompState where
  sp : EncodeState
  codeBuf : List Nat
  codeBufPtr : Nat
  mask : Nat
  s : Nat
  r : Nat
  dataLen : Nat
  srcPos : Nat
  dst : List Nat
  toks : List Token

/-- The token-emission part of the main loop body of `Compress`: clamp
`matchLength` to `dataLen`, emit a literal or a reference into `codeBuf`,
shift the mask, and flush `codeBuf` to `dst` after 8 tokens. -/
def emitStep (st : CompState) : CompState :=
  let sp0 := st.sp
  let sp1 := if st.dataLen < sp0.matchLength then { sp0 with matchLength := st.dataLen } else sp0
  let st1 :=
    if sp1.matchLength ≤ threshold then
      let sp2 := { sp1 with matchLength := 1 }
      let b := sp2.textBuf st.r
      { st with sp := sp2
              , codeBuf := setI (setI st.codeBuf 0 (getI st.codeBuf 0 ||| st.mask)) st.codeBufPtr b
              , codeBufPtr := st.codeBufPtr + 1
              , toks := st.toks ++ [Token.lit b] }
    else
      { st with sp := sp1
              , codeBuf := setI (setI st.codeBuf st.codeBufPtr (refByte0 sp1.matchPosition))
                  (st.codeBufPtr + 1) (refByte1 sp1.matchPosition sp1.matchLength)
              , codeBufPtr := st.codeBufPtr + 2
              , toks := st.toks ++ [Token.ref sp1.matchPosition sp1.matchLength] }
  let m := (st1.mask <<< 1) % 256
  if m = 0 then
    { st1 with dst := st1.dst ++ st1.codeBuf.take st1.codeBufPtr
             , codeBuf := setI st1.codeBuf 0 0
             , codeBufPtr := 1
             , mask := 1 }
  else { st1 with mask := m }

/-- One step of the first advance loop of `Compress`: delete the outgoing
position `s`, read the next source byte into the buffer (mirroring it into
the tail when `s < f-1`), advance `s` and `r` modulo `n`, and insert the new
`r`.  The caller has checked `srcPos < len(src)`. -/
def advanceStep (src : List Nat) (st : CompState) : CompState :=
  let sp1 := deleteNode st.sp st.s
  let c := getI src st.srcPos
  let tb1 := upd sp1.textBuf st.s (c % 256)
  let tb2 := if st.s < f - 1 then upd tb1 (st.s + n) (c % 256) else tb1
  let sp2 := { sp1 with textBuf := tb2 }
  let s1 := (st.s + 1) &&& (n - 1)
  let r1 := (st.r + 1) &&& (n - 1)
  let sp3 := insertNode sp2 r1
  { st with sp := sp3, s := s1, r := r1, srcPos := st.srcPos + 1 }

/-- The first advance loop
`for i = 0; i < lastMatchLength && srcPos < len(src); i++`.
Returns the state and the number of iterations still owed to the second
(drain) loop. -/
def advanceLoop (src : List Nat) : Nat → CompState → CompState × Nat
  | 0, st => (st, 0)
  | k + 1, st =>
    if st.srcPos < src.length then advanceLoop src k (advanceStep src st)
    else (st, k + 1)

/-- One step of the drain loop of `Compress` (`for i < lastMatchLength` after
source exhaustion): delete `s`, advance the cursors, decrement `dataLen`, and
insert the new `r` while `dataLen > 0`. -/
def drainStep (st : CompState) : CompState :=
  let sp1 := deleteNode st.sp st.s
  let s1 := (st.s + 1) &&& (n - 1)
  let r1 := (st.r + 1) &&& (n - 1)
  let d1 := st.dataLen - 1
  let sp2 := if 0 < d1 then insertNode sp1 r1 else sp1
  { st with sp := sp2, s := s1, r := r1, dataLen := d1 }

/-- The drain loop, run for the iterations the first advance loop left over. -/
def drainLoop : Nat → CompState → CompState
  | 0, st => st
  | k + 1, st => drainLoop k (drainStep st)

/-- One full iteration of the main loop of `Compress`. -/
def compressStep (src : List Nat) (st : CompState) : CompState :=
  let st1 := emitStep st
  let st2k := advanceLoop src st1.sp.matchLength st1
  drainLoop st2k.2 st2k.1

/-- The main loop of `Compress`, with the `dataLen <= 0` break checked after
each iteration as in the source.  Fuel `len(src) + f + 1` always suffices. -/
def compressLoop (src : List Nat) : Nat → CompState → CompState
  | 0, st => st
  | fuel + 1, st =>
    let st1 := compressStep src st
    if st1.dataLen = 0 then st1 else compressLoop src fuel st1

/-- The preload loop of `Compress`: write the first (up to `f`) source bytes
into `textBuf[r] ..`. -/
def writeBytes (tb : Nat → Nat) (pos : Nat) : List Nat → (Nat → Nat)
  | [] => tb
  | b :: rest => writeBytes (upd tb pos b) (pos + 1) rest

/-- The initial inserts `for i = 1; i <= k; i++ { insertNode(r - i) }`. -/
def initialInserts (sp : EncodeState) (r : Nat) : Nat → EncodeState
  | 0 => sp
  | k + 1 => insertNode (initialInserts sp r k) (r - (k + 1))

/-- The encode state after the preload (`textBuf[r..r+dataLen)` holds the
first up-to-`f` source bytes), the `f` initial inserts of space-prefixed
strings, and the final `insertNode(r)`. -/
def initSp (src : List Nat) : EncodeState :=
  insertNode
    (initialInserts
      { initState with textBuf := writeBytes initState.textBuf (n - f) (src.take f) }
      (n - f) f)
    (n - f)

/-- The driver state `Compress` enters its main loop with. -/
def initCompState (src : List Nat) : CompState :=
  { sp := initSp src, codeBuf := List.replicate 17 0, codeBufPtr := 1, mask := 1
  , s := 0, r := n - f, dataLen := min f src.length, srcPos := min f src.length
  , dst := [], toks := [] }

/-- Everything `Compress` does after its two early returns: initialise state,
preload, initial inserts, and the main loop. -/
def compressRun (src : List Nat) : CompState :=
  compressLoop src (src.length + f + 1) (initCompState src)

/-- `Compress` from the source: LZSS-compress a byte sequence.  The final
`codeBufPtr > 1` check flushes the part trailing group. -/
def Compress (src : List Nat) : List Nat :=
  if src.length = 0 then []
  else if min f src.length = 0 then []
  else
    let st := compressRun src
    if 1 < st.codeBufPtr then st.dst ++ st.codeBuf.take st.codeBufPtr else st.dst

/-- The ghost token trace of a `Compress` run: the sequence of literal /
reference decisions the encoder makes, in order. -/
def compressTokens (src : List Nat) : List Token :=
  if src.length = 0 then []
  else if min f src.length = 0 then []
  else (compressRun src).toks

/-- The decoder state: ring buffer, write cursor `r`, the control-bit
register `flags`, the input cursor, and the output accumulated so far. -/
structure DecState where
  textBuf : Nat → Nat
  r : Nat
  flags : Nat
  srcPos : Nat
  dst : List Nat

/-- The decoder's reconstruction of a reference position:
`i | ((j & 0xF0) << 4)`. -/
def refPos (b0 b1 : Nat) : Nat := b0 ||| ((b1 &&& 0xF0) <<< 4)

/-- The decoder's length field: `(j & 0x0F) + threshold`; the copy loop then
runs `refLen + 1` times. -/
def refLen (b1 : Nat) : Nat := (b1 &&& 0x0F) + threshold

/-- One step of the decoder's reference copy loop: read
`textBuf[(i+k) & (n-1)]`, append it to the output, and write it back at `r`. -/
def copyStep (st : DecState) (idx : Nat) : DecState :=
  let c := st.textBuf (idx &&& (n - 1))
  { st with dst := st.dst ++ [c % 256]
          , textBuf := upd st.textBuf st.r (c % 256)
          , r := (st.r + 1) &&& (n - 1) }

/-- The decoder's copy loop `for k = 0; k <= j; k++`, with `idx` the current
absolute source index `i + k` and the second argument the remaining count. -/
def copyN (st : DecState) (idx : Nat) : Nat → DecState
  | 0 => st
  | m + 1 => copyN (copyStep st idx) (idx + 1) m

/-- The main loop of `Decompress`: shift the control register, reload it
(with the `0xFF00` sentinel) when its high flag is exhausted, then decode one
literal or one reference per bit; any exhausted read breaks the loop.  Each
non-breaking iteration consumes at least one input byte, so fuel
`len(src) + 1` always suffices. -/
def decompressLoop (src : List Nat) : Nat → DecState → DecState
  | 0, st => st
  | fuel + 1, st =>
    let fl0 := st.flags >>> 1
    let reload : Option DecState :=
      if fl0 &&& 0x100 = 0 then
        if src.length ≤ st.srcPos then none
        else some { st with flags := getI src st.srcPos ||| 0xFF00, srcPos := st.srcPos + 1 }
      else some { st with flags := fl0 }
    match reload with
    | none => { st with flags := fl0 }
    | some st1 =>
      if st1.flags &&& 1 = 1 then
        if src.length ≤ st1.srcPos then st1
        else
          let c := getI src st1.srcPos
          decompressLoop src fuel
            { st1 with srcPos := st1.srcPos + 1
                     , dst := st1.dst ++ [c % 256]
                     , textBuf := upd st1.textBuf st1.r (c % 256)
                     , r := (st1.r + 1) &&& (n - 1) }
      else
        if src.length ≤ st1.srcPos then st1
        else
          let b0 := getI src st1.srcPos
          let st2 := { st1 with srcPos := st1.srcPos + 1 }
          if src.length ≤ st2.srcPos then st2
          else
            let b1 := getI src st2.srcPos
            let st3 := { st2 with srcPos := st2.srcPos + 1 }
            decompressLoop src fuel (copyN st3 (refPos b0 b1) (refLen b1 + 1))

/-- The decoder's initial state: ring buffer space-filled on the first `n-f`
cells, write cursor at `n - f`, empty control register. -/
def initDecState : DecState :=
  { textBuf := fun j => if j < n - f then 32 else 0
  , r := n - f, flags := 0, srcPos := 0, dst := [] }

/-- `Decompress` from the source: decode an LZSS token stream. -/
def Decompress (src : List Nat) : List Nat :=
  (decompressLoop src (src.length + 1) initDecState).dst

/-!
## Specification-side definitions

`packTokens` is written from the spec's words (groups of at most 8 tokens,
one control byte per group, bit `i` (LSB first) set exactly for literals,
part trailing group flushed); it is compared with `Compress` itself.
-/

/-- Control-byte bit of a token: 1 for a literal, 0 for a reference. -/
def tokenBit : Token → Nat
  | Token.lit _ => 1
  | Token.ref _ _ => 0

/-- Serialized bytes of one token: one byte for a literal, the two reference
bytes for a reference. -/
def tokenBytes : Token → List Nat
  | Token.lit b => [b]
  | Token.ref p l => [refByte0 p, refByte1 p l]

/-- Control byte of a group: bit `i` (LSB first) is `tokenBit` of token `i`,
written as the sum of `tokenBit * 2^i` (each bit is 0 or 1, so the sum has
exactly those bits set). -/
def controlByte : List Token → Nat
  | [] => 0
  | t :: ts => tokenBit t + 2 * controlByte ts

/-- Modelled from the spec: pack tokens into groups of at most 8, each group
prefixed by its control byte; the part trailing group is flushed as-is. -/
def packTokens (ts : List Token) : List Nat :=
  match ts with
  | [] => []
  | t :: ts2 =>
    (controlByte ((t :: ts2).take 8) :: ((t :: ts2).take 8).flatMap tokenBytes)
      ++ packTokens (ts2.drop 7)
termination_by ts.length
decreasing_by simp [List.length_drop]; omega

/-- Packing invariant for the `Compress` main loop: the trace splits into
complete groups `done` already flushed to `dst` (as `packTokens done`) and a
part group `part` of fewer than 8 tokens sitting in `codeBuf`, with `mask`
tracking the next control bit position. -/
def PackInv (st : CompState) : Prop :=
  ∃ done part : List Token,
    st.toks = done ++ part ∧
    done.length % 8 = 0 ∧
    part.length < 8 ∧
    st.dst = packTokens done ∧
    st.mask = 2 ^ part.length ∧
    st.codeBuf.length = 17 ∧
    st.codeBufPtr = 1 + (part.flatMap tokenBytes).length ∧
    st.codeBuf.take st.codeBufPtr = controlByte part :: part.flatMap tokenBytes

/-!
## Invariant definitions
-/

/-- All child-link entries are at most `nilIdx = n` (every stored child is a
real position or the sentinel). -/
def ChildrenLE (sp : EncodeState) : Prop :=
  (∀ j, sp.lchild j ≤ n) ∧ (∀ j, sp.rchild j ≤ n)

/-- The basic encode-state invariant: bounded child entries, a real
`matchPosition`, and `matchLength` at most `f`. -/
def SpInv (sp : EncodeState) : Prop :=
  ChildrenLE sp ∧ sp.matchPosition < n ∧ sp.matchLength ≤ f

/-- Every reference token of a trace has a length in `[threshold+1, f]` and a
position inside the ring buffer. -/
def TraceOK (ts : List Token) : Prop :=
  ∀ p l, Token.ref p l ∈ ts → threshold + 1 ≤ l ∧ l ≤ f ∧ p < n

/-- The compression-driver invariant carried around the main loop. -/
def CInv (st : CompState) : Prop := SpInv st.sp ∧ TraceOK st.toks

/-- The output-size accounting invariant of the main loop of `Compress`:
`mask` is the `m`-th bit, the part group holds between `m` and `2m` token
bytes, and (with everything scaled by 8/9 to stay in `Nat`) the flushed
output plus the part group never exceeds 9/8 of the consumed input. -/
def C7Inv (src : List Nat) (st : CompState) : Prop :=
  st.codeBuf.length = 17 ∧ st.srcPos ≤ src.length ∧
  ∃ m, m < 8 ∧ st.mask = 2 ^ m ∧ m + 1 ≤ st.codeBufPtr ∧ st.codeBufPtr ≤ 2 * m + 1 ∧
    8 * st.dst.length + 9 * (st.codeBufPtr - 1) + 9 * st.dataLen ≤ 9 * st.srcPos

/-- Every reference token of a trace round-trips through its 2-byte wire
form: serialising gives exactly `[refByte0 p, refByte1 p l]`, and the
decoder's `refPos` / `refLen` reconstruct the position and the copy length. -/
def TraceCodec (ts : List Token) : Prop :=
  ∀ p l, Token.ref p l ∈ ts →
    tokenBytes (Token.ref p l) = [refByte0 p, refByte1 p l] ∧
    refPos (refByte0 p) (refByte1 p l) = p ∧
    refLen (refByte1 p l) + 1 = l

/-!
## Basic lemmas
-/

theorem upd_self (a : Nat → Nat) (i v : Nat) : upd a i v i = v := by
  simp [upd]

theorem upd_ne (a : Nat → Nat) {i j : Nat} (v : Nat) (h : j ≠ i) : upd a i v j = a j := by
  simp [upd, h]

theorem upd_le {a : Nat → Nat} {b v : Nat} (hall : ∀ j, a j ≤ b) (hv : v ≤ b)
    (i j : Nat) : upd a i v j ≤ b := by
  by_cases hij : j = i
  · subst hij; rw [upd_self]; exact hv
  · rw [upd_ne a v hij]; exact hall j

theorem length_setI (l : List Nat) (i v : Nat) : (setI l i v).length = l.length := by
  simp [setI]

theorem getI_setI_self {l : List Nat} {i : Nat} (v : Nat) (h : i < l.length) :
    getI (setI l i v) i = v := by
  simp [getI, setI, List.getD_eq_getElem?_getD, List.getElem?_set_self, h]

theorem getI_setI_ne (l : List Nat) {i j : Nat} (v : Nat) (h : i ≠ j) :
    getI (setI l i v) j = getI l j := by
  simp [getI, setI, List.getD_eq_getElem?_getD, List.getElem?_set_ne, h]

/-!
## One-step unfolding of the decompression loop
-/

theorem decompressLoop_succ (src : List Nat) (fuel : Nat) (st : DecState) :
    decompressLoop src (fuel + 1) st =
      (let fl0 := st.flags >>> 1
       let reload : Option DecState :=
         if fl0 &&& 0x100 = 0 then
           if src.length ≤ st.srcPos then none
           else some { st with flags := getI src st.srcPos ||| 0xFF00, srcPos := st.srcPos + 1 }
         else some { st with flags := fl0 }
       match reload with
       | none => { st with flags := fl0 }
       | some st1 =>
         if st1.flags &&& 1 = 1 then
           if src.length ≤ st1.srcPos then st1
           else
             let c := getI src st1.srcPos
             decompressLoop src fuel
               { st1 with srcPos := st1.srcPos + 1
                        , dst := st1.dst ++ [c % 256]
                        , textBuf := upd st1.textBuf st1.r (c % 256)
                        , r := (st1.r + 1) &&& (n - 1) }
         else
           if src.length ≤ st1.srcPos then st1
           else
             let b0 := getI src st1.srcPos
             let st2 := { st1 with srcPos := st1.srcPos + 1 }
             if src.length ≤ st2.srcPos then st2
             else
               let b1 := getI src st2.srcPos
               let st3 := { st2 with srcPos := st2.srcPos + 1 }
               decompressLoop src fuel (copyN st3 (refPos b0 b1) (refLen b1 + 1))) := rfl

/-!
## Reference-token byte codec
-/

set_option maxRecDepth 2000 in
theorem and240 : ∀ x : Nat, x < 256 → x &&& 240 = x / 16 * 16 := by decide

set_option maxRecDepth 2000 in
theorem and15 : ∀ x : Nat, x < 256 → x &&& 15 = x % 16 := by decide

theorem lor16 : ∀ h : Nat, h < 16 → ∀ d : Nat, d < 16 → 16 * h ||| d = 16 * h + d := by decide

set_option maxRecDepth 2000 in
theorem lor256 : ∀ h : Nat, h < 16 → ∀ l : Nat, l < 256 → l ||| 256 * h = 256 * h + l := by decide

theorem refCodec (pos len : Nat) (hpos : pos < n) (hlo : threshold + 1 ≤ len) (hhi : len ≤ f) :
    refPos (refByte0 pos) (refByte1 pos len) = pos ∧
    refLen (refByte1 pos len) + 1 = len := by
  obtain ⟨h, l, d, hh, hl, hd, rfl, rfl⟩ :
      ∃ h l d, h < 16 ∧ l < 256 ∧ d < 16 ∧ pos = 256 * h + l ∧ len = d + 3 := by
    simp only [n] at hpos
    simp only [threshold] at hlo
    simp only [f] at hhi
    refine ⟨pos / 256, pos % 256, len - 3, ?_, ?_, ?_, ?_, ?_⟩ <;> omega
  have hb0 : refByte0 (256 * h + l) = l := by
    simp [refByte0]; omega
  have hshift : (256 * h + l) >>> 4 = 16 * h + l / 16 := by
    rw [Nat.shiftRight_eq_div_pow]; omega
  have hx : (16 * h + l / 16) &&& 240 = 16 * h := by
    rw [and240 _ (by omega)]
    have : (16 * h + l / 16) / 16 = h := by omega
    rw [this]; ring
  have hb1 : refByte1 (256 * h + l) (d + 3) = 16 * h + d := by
    simp only [refByte1, threshold, hshift, hx]
    have h1 : d + 3 - (2 + 1) = d := by omega
    rw [h1, lor16 _ hh _ hd]
    omega
  constructor
  · rw [hb0, hb1]
    simp only [refPos]
    have hy : (16 * h + d) &&& 240 = 16 * h := by
      rw [and240 _ (by omega)]
      have : (16 * h + d) / 16 = h := by omega
      rw [this]; ring
    rw [hy, Nat.shiftLeft_eq]
    have : 16 * h * 2 ^ 4 = 256 * h := by ring
    rw [this, lor256 _ hh _ hl]
  · rw [hb1]
    simp only [refLen, threshold]
    rw [and15 _ (by omega)]
    omega

/-!
## Claim C6 and claim C10
-/

/-- C6: `Compress` applied to the empty byte sequence returns the empty byte
sequence (no header, no trailing marker), and `Decompress` applied to the
empty byte sequence returns the empty byte sequence. -/
theorem claim_C6_empty_roundtrip : Compress [] = [] ∧ Decompress [] = [] := ⟨rfl, rfl⟩

/-- C10: for every single-byte input, `Decompress` returns the empty byte
sequence: the byte is consumed as a control byte, and both the literal and
the reference branch find the input exhausted before emitting output. -/
theorem claim_C10_single_byte (b : Nat) : Decompress [b] = [] := by
  show (decompressLoop [b] (1 + 1) initDecState).dst = []
  rw [decompressLoop_succ]
  by_cases hb : (getI [b] 0 ||| 0xFF00) &&& 1 = 1 <;>
    simp [initDecState, hb]

theorem copyN_srcPos (idx : Nat) : ∀ (m : Nat) (st : DecState), (copyN st idx m).srcPos = st.srcPos := by
  intro m
  induction m generalizing idx with
  | zero => intro st; rfl
  | succ m ih =>
    intro st
    unfold copyN
    rw [ih]
    rfl

theorem decompressLoop_fuel (src : List Nat) :
    ∀ (fuel1 fuel2 : Nat) (st : DecState),
      src.length - st.srcPos + 1 ≤ fuel1 → src.length - st.srcPos + 1 ≤ fuel2 →
      decompressLoop src fuel1 st = decompressLoop src fuel2 st := by
  intro fuel1
  induction fuel1 with
  | zero => intro fuel2 st h1 _; omega
  | succ fuel1 ih =>
    intro fuel2 st h1 h2
    cases fuel2 with
    | zero => omega
    | succ fuel2 =>
      rw [decompressLoop_succ, decompressLoop_succ]
      dsimp only
      by_cases c1 : (st.flags >>> 1) &&& 0x100 = 0
      · simp only [if_pos c1]
        by_cases c2 : src.length ≤ st.srcPos
        · simp only [if_pos c2]
        · simp only [if_neg c2]
          by_cases c3 : (getI src st.srcPos ||| 0xFF00) &&& 1 = 1
          · simp only [if_pos c3]
            by_cases c4 : src.length ≤ st.srcPos + 1
            · simp only [if_pos c4]
            · simp only [if_neg c4]
              exact ih _ _ (by dsimp only; omega) (by dsimp only; omega)
          · simp only [if_neg c3]
            by_cases c4 : src.length ≤ st.srcPos + 1
            · simp only [if_pos c4]
            · simp only [if_neg c4]
              by_cases c5 : src.length ≤ st.srcPos + 1 + 1
              · simp only [if_pos c5]
              · simp only [if_neg c5]
                apply ih
                · rw [copyN_srcPos]
                  dsimp only
                  omega
                · rw [copyN_srcPos]
                  dsimp only
                  omega
      · simp only [if_neg c1]
        by_cases c3 : (st.flags >>> 1) &&& 1 = 1
        · simp only [if_pos c3]
          by_cases c4 : src.length ≤ st.srcPos
          · simp only [if_pos c4]
          · simp only [if_neg c4]
            exact ih _ _ (by dsimp only; omega) (by dsimp only; omega)
        · simp only [if_neg c3]
          by_cases c4 : src.length ≤ st.srcPos
          · simp only [if_pos c4]
          · simp only [if_neg c4]
            by_cases c5 : src.length ≤ st.srcPos + 1
            · simp only [if_pos c5]
            · simp only [if_neg c5]
              apply ih
              · rw [copyN_srcPos]
                dsimp only
                omega
              · rw [copyN_srcPos]
                dsimp only
                omega

theorem emitStep_srcPos (st : CompState) : (emitStep st).srcPos = st.srcPos := by
  unfold emitStep
  dsimp only
  split_ifs <;> rfl

theorem emitStep_dataLen (st : CompState) : (emitStep st).dataLen = st.dataLen := by
  unfold emitStep
  dsimp only
  split_ifs <;> rfl

theorem emitStep_matchLength_pos (st : CompState) : 1 ≤ (emitStep st).sp.matchLength := by
  unfold emitStep
  dsimp only
  by_cases hA : st.dataLen < st.sp.matchLength
  · simp only [if_pos hA]
    by_cases hB : st.dataLen ≤ threshold
    · simp only [if_pos hB]
      by_cases hC : (st.mask <<< 1) % 256 = 0 <;>
        simp only [if_pos, if_neg, hC, if_true, if_false] <;> omega
    · simp only [if_neg hB]
      by_cases hC : (st.mask <<< 1) % 256 = 0 <;>
        simp only [if_pos, if_neg, hC, if_true, if_false] <;> omega
  · simp only [if_neg hA]
    by_cases hB : st.sp.matchLength ≤ threshold
    · simp only [if_pos hB]
      by_cases hC : (st.mask <<< 1) % 256 = 0 <;>
        simp only [if_pos, if_neg, hC, if_true, if_false] <;> omega
    · simp only [if_neg hB]
      by_cases hC : (st.mask <<< 1) % 256 = 0 <;>
        simp only [if_pos, if_neg, hC, if_true, if_false] <;> omega

theorem advanceStep_srcPos (src : List Nat) (st : CompState) :
    (advanceStep src st).srcPos = st.srcPos + 1 := rfl

theorem advanceStep_dataLen (src : List Nat) (st : CompState) :
    (advanceStep src st).dataLen = st.dataLen := rfl

theorem advanceLoop_spec (src : List Nat) :
    ∀ (k : Nat) (st : CompState),
      (advanceLoop src k st).1.srcPos = st.srcPos + (k - (advanceLoop src k st).2) ∧
      (advanceLoop src k st).1.dataLen = st.dataLen ∧
      (advanceLoop src k st).2 ≤ k ∧
      (advanceLoop src k st).1.srcPos ≤ max st.srcPos src.length := by
  intro k
  induction k with
  | zero =>
    intro st
    unfold advanceLoop
    dsimp only
    exact ⟨by omega, rfl, by omega, le_max_left _ _⟩
  | succ k ih =>
    intro st
    unfold advanceLoop
    by_cases hc : st.srcPos < src.length
    · simp only [if_pos hc]
      obtain ⟨ha1, ha2, ha3, ha4⟩ := ih (advanceStep src st)
      rw [advanceStep_srcPos] at ha1 ha4
      rw [advanceStep_dataLen] at ha2
      refine ⟨by omega, ha2, by omega, by omega⟩
    · simp only [if_neg hc]
      refine ⟨?_, ?_, ?_, ?_⟩ <;> first | trivial | omega

theorem drainStep_dataLen (st : CompState) : (drainStep st).dataLen = st.dataLen - 1 := rfl

theorem drainStep_srcPos (st : CompState) : (drainStep st).srcPos = st.srcPos := rfl

theorem drainLoop_spec : ∀ (k : Nat) (st : CompState),
    (drainLoop k st).dataLen = st.dataLen - k ∧ (drainLoop k st).srcPos = st.srcPos := by
  intro k
  induction k with
  | zero =>
    intro st
    unfold drainLoop
    exact ⟨by omega, rfl⟩
  | succ k ih =>
    intro st
    unfold drainLoop
    obtain ⟨h1, h2⟩ := ih (drainStep st)
    rw [drainStep_dataLen] at h1
    rw [drainStep_srcPos] at h2
    exact ⟨by omega, h2⟩

theorem compressStep_measure {src : List Nat} {st : CompState} (hsrc : st.srcPos ≤ src.length) :
    (compressStep src st).srcPos ≤ src.length ∧
    ((compressStep src st).dataLen ≠ 0 →
      src.length - (compressStep src st).srcPos + (compressStep src st).dataLen + 1 ≤
      src.length - st.srcPos + st.dataLen) := by
  have h1s := emitStep_srcPos st
  have h1d := emitStep_dataLen st
  have h1m := emitStep_matchLength_pos st
  obtain ⟨ha1, ha2, ha3, ha4⟩ := advanceLoop_spec src (emitStep st).sp.matchLength (emitStep st)
  obtain ⟨hd1, hd2⟩ := drainLoop_spec
    (advanceLoop src (emitStep st).sp.matchLength (emitStep st)).2
    (advanceLoop src (emitStep st).sp.matchLength (emitStep st)).1
  unfold compressStep
  dsimp only
  rw [hd1, hd2, ha2]
  constructor
  · omega
  · intro hne
    omega

theorem compressLoop_fuel (src : List Nat) :
    ∀ (fuel1 fuel2 : Nat) (st : CompState), st.srcPos ≤ src.length →
      src.length - st.srcPos + st.dataLen + 1 ≤ fuel1 →
      src.length - st.srcPos + st.dataLen + 1 ≤ fuel2 →
      compressLoop src fuel1 st = compressLoop src fuel2 st := by
  intro fuel1
  induction fuel1 with
  | zero => intro fuel2 st h0 h1 h2; omega
  | succ fuel1 ih =>
    intro fuel2 st h0 h1 h2
    cases fuel2 with
    | zero => omega
    | succ fuel2 =>
      unfold compressLoop
      dsimp only
      by_cases hc : (compressStep src st).dataLen = 0
      · simp only [if_pos hc]
      · simp only [if_neg hc]
        obtain ⟨hm1, hm2⟩ := @compressStep_measure src st h0
        exact ih _ _ hm1 (by omega) (by omega)

/-!
## Claim C2
-/

/-- C2: `Compress` and `Decompress` are total over all byte sequences,
including malformed or truncated token streams: both main loops reach their
break conditions within the given fuel, so any sufficiently large fuel
produces the same (well-defined, possibly truncated) output -- no input
makes either loop run away or fail. -/
theorem claim_C2_totality (src : List Nat) (fuel : Nat) (h : src.length + f + 1 ≤ fuel) :
    (decompressLoop src fuel initDecState).dst = Decompress src ∧
    compressLoop src fuel (initCompState src) = compressRun src := by
  constructor
  · unfold Decompress
    rw [decompressLoop_fuel src fuel (src.length + 1) initDecState (by dsimp only [initDecState]; omega)
      (by dsimp only [initDecState]; omega)]
  · unfold compressRun
    apply compressLoop_fuel src fuel (src.length + f + 1) (initCompState src)
    · show min f src.length ≤ src.length
      omega
    · show src.length - min f src.length + min f src.length + 1 ≤ fuel
      omega
    · show src.length - min f src.length + min f src.length + 1 ≤ src.length + f + 1
      omega

/-- Concrete instantiation of `claim_C2_totality` at input `[7]`, fuel 20. -/
theorem claim_C2_totality_witness :
    (decompressLoop [7] 20 initDecState).dst = Decompress [7] ∧
    compressLoop [7] 20 (initCompState [7]) = compressRun [7] :=
  claim_C2_totality [7] 20 (by decide)

end LZSS

namespace LZSS

theorem nilIdx_le : nilIdx ≤ n := Nat.le_refl n

theorem rchildDescend_le {sp : EncodeState} (hR : ∀ j, sp.rchild j ≤ n) :
    ∀ fuel q, q ≤ n → rchildDescend sp fuel q ≤ n := by
  intro fuel
  induction fuel with
  | zero => intro q hq; exact hq
  | succ fuel ih =>
    intro q hq
    unfold rchildDescend
    by_cases h : sp.rchild q ≠ nilIdx
    · simp only [if_pos h]
      exact ih _ (hR q)
    · simp only [if_neg h]
      exact hq

theorem SpInv_replaceNode {sp : EncodeState} {r p : Nat} (h : SpInv sp) (hr : r ≤ n) :
    SpInv (replaceNode sp r p) := by
  obtain ⟨⟨hL, hR⟩, hmp, hml⟩ := h
  unfold replaceNode
  dsimp only
  split
  · refine ⟨⟨fun j => ?_, fun j => ?_⟩, hmp, hml⟩ <;>
    · dsimp only
      unfold upd
      split_ifs <;> first | exact hL _ | exact hR _ | exact hr
  · refine ⟨⟨fun j => ?_, fun j => ?_⟩, hmp, hml⟩ <;>
    · dsimp only
      unfold upd
      split_ifs <;> first | exact hL _ | exact hR _ | exact hr

theorem SpInv_deleteNode {sp : EncodeState} (p : Nat) (h : SpInv sp) :
    SpInv (deleteNode sp p) := by
  obtain ⟨⟨hL, hR⟩, hmp, hml⟩ := h
  have hq' : ∀ q0, q0 ≤ n → rchildDescend sp (n + 2) q0 ≤ n :=
    fun q0 h0 => rchildDescend_le hR _ _ h0
  unfold deleteNode
  dsimp only
  split_ifs <;>
    refine ⟨⟨fun j => ?_, fun j => ?_⟩, hmp, hml⟩ <;>
    · try dsimp only
      try unfold upd
      try split_ifs
      all_goals first | exact hL _ | exact hR _ | exact hq' _ (hL p)

theorem keyCmpGo_snd_le (sp : EncodeState) (r p : Nat) :
    ∀ left i, i ≤ f → (keyCmpGo sp r p left i).2 ≤ f := by
  intro left
  induction left with
  | zero => intro i hi; exact hi
  | succ left ih =>
    intro i hi
    unfold keyCmpGo
    by_cases h1 : i < f
    · simp only [if_pos h1]
      by_cases h2 : ((sp.textBuf (r + i) : Int) - (sp.textBuf (p + i) : Int)) ≠ 0
      · simp only [if_pos h2]
        exact hi
      · simp only [if_neg h2]
        exact ih (i + 1) (by omega)
    · simp only [if_neg h1]
      exact hi

theorem keyCmp_snd_le (sp : EncodeState) (r p : Nat) : (keyCmp sp r p).2 ≤ f :=
  keyCmpGo_snd_le sp r p f 1 (by simp [f])

theorem SpInv_attachRight {sp : EncodeState} {r p : Nat} (h : SpInv sp) (hr : r ≤ n) :
    SpInv (attachRight sp r p) := by
  obtain ⟨⟨hL, hR⟩, hmp, hml⟩ := h
  exact ⟨⟨hL, upd_le hR hr p⟩, hmp, hml⟩

theorem SpInv_attachLeft {sp : EncodeState} {r p : Nat} (h : SpInv sp) (hr : r ≤ n) :
    SpInv (attachLeft sp r p) := by
  obtain ⟨⟨hL, hR⟩, hmp, hml⟩ := h
  exact ⟨⟨upd_le hL hr p, hR⟩, hmp, hml⟩

theorem SpInv_insertNodeLoop : ∀ (fuel : Nat) (sp : EncodeState) (r : Nat) (cmp : Int) (p : Nat),
    SpInv sp → r ≤ n → SpInv (insertNodeLoop fuel sp r cmp p) := by
  intro fuel
  induction fuel with
  | zero => intro sp r cmp p h _; exact h
  | succ fuel ih =>
    intro sp r cmp p h hr
    unfold insertNodeLoop
    dsimp only
    by_cases h0 : (0 : Int) ≤ cmp
    · simp only [if_pos h0]
      by_cases h1 : sp.rchild p ≠ nilIdx
      · simp only [if_pos h1]
        by_cases h2 : sp.matchLength < (keyCmp sp r (sp.rchild p)).2
        · simp only [if_pos h2]
          have hinv2 : SpInv
              { sp with
                matchPosition := sp.rchild p
                matchLength := (keyCmp sp r (sp.rchild p)).2 } := by
            obtain ⟨hc, _, _⟩ := h
            refine ⟨hc, ?_, keyCmp_snd_le sp r (sp.rchild p)⟩
            have := hc.2 p
            simp only [nilIdx] at h1
            show sp.rchild p < n
            omega
          by_cases h3 : f ≤ (keyCmp sp r (sp.rchild p)).2
          · simp only [if_pos h3]
            exact SpInv_replaceNode hinv2 hr
          · simp only [if_neg h3]
            exact ih _ _ _ _ hinv2 hr
        · simp only [if_neg h2]
          exact ih _ _ _ _ h hr
      · simp only [if_neg h1]
        exact SpInv_attachRight h hr
    · simp only [if_neg h0]
      by_cases h1 : sp.lchild p ≠ nilIdx
      · simp only [if_pos h1]
        by_cases h2 : sp.matchLength < (keyCmp sp r (sp.lchild p)).2
        · simp only [if_pos h2]
          have hinv2 : SpInv
              { sp with
                matchPosition := sp.lchild p
                matchLength := (keyCmp sp r (sp.lchild p)).2 } := by
            obtain ⟨hc, _, _⟩ := h
            refine ⟨hc, ?_, keyCmp_snd_le sp r (sp.lchild p)⟩
            have := hc.1 p
            simp only [nilIdx] at h1
            show sp.lchild p < n
            omega
          by_cases h3 : f ≤ (keyCmp sp r (sp.lchild p)).2
          · simp only [if_pos h3]
            exact SpInv_replaceNode hinv2 hr
          · simp only [if_neg h3]
            exact ih _ _ _ _ hinv2 hr
        · simp only [if_neg h2]
          exact ih _ _ _ _ h hr
      · simp only [if_neg h1]
        exact SpInv_attachLeft h hr

theorem SpInv_insertNode {sp : EncodeState} {r : Nat} (h : SpInv sp) (hr : r ≤ n) :
    SpInv (insertNode sp r) := by
  obtain ⟨⟨hL, hR⟩, hmp, hml⟩ := h
  unfold insertNode
  dsimp only
  apply SpInv_insertNodeLoop
  · exact ⟨⟨upd_le hL nilIdx_le r, upd_le hR nilIdx_le r⟩, hmp, by simp [f]⟩
  · exact hr

theorem TraceOK_nil : TraceOK [] := by
  intro p l hm
  simp at hm

theorem TraceOK_append_lit {ts : List Token} (h : TraceOK ts) (b : Nat) :
    TraceOK (ts ++ [Token.lit b]) := by
  intro p l hm
  rcases List.mem_append.mp hm with h1 | h2
  · exact h p l h1
  · simp at h2

theorem TraceOK_append_ref {ts : List Token} (h : TraceOK ts) {p l : Nat}
    (hp : p < n) (h3 : threshold + 1 ≤ l) (hf : l ≤ f) :
    TraceOK (ts ++ [Token.ref p l]) := by
  intro p' l' hm
  rcases List.mem_append.mp hm with h1 | h2
  · exact h p' l' h1
  · obtain ⟨rfl, rfl⟩ := Token.ref.inj (List.mem_singleton.mp h2)
    exact ⟨h3, hf, hp⟩

theorem CInv_emitStep {st : CompState} (h : CInv st) : CInv (emitStep st) := by
  obtain ⟨⟨hc, hmp, hml⟩, htr⟩ := h
  unfold emitStep
  dsimp only
  by_cases hA : st.dataLen < st.sp.matchLength
  · simp only [if_pos hA]
    by_cases hB : st.dataLen ≤ threshold
    · simp only [if_pos hB]
      by_cases hC : (st.mask <<< 1) % 256 = 0 <;>
        simp only [if_pos, if_neg, hC, if_true, if_false] <;>
        exact ⟨⟨hc, hmp, by simp [f]⟩, TraceOK_append_lit htr _⟩
    · simp only [if_neg hB]
      by_cases hC : (st.mask <<< 1) % 256 = 0 <;>
        simp only [if_pos, if_neg, hC, if_true, if_false] <;>
        exact ⟨⟨hc, hmp, by show st.dataLen ≤ f; omega⟩,
          TraceOK_append_ref htr hmp (by omega) (by omega)⟩
  · simp only [if_neg hA]
    by_cases hB : st.sp.matchLength ≤ threshold
    · simp only [if_pos hB]
      by_cases hC : (st.mask <<< 1) % 256 = 0 <;>
        simp only [if_pos, if_neg, hC, if_true, if_false] <;>
        exact ⟨⟨hc, hmp, by simp [f]⟩, TraceOK_append_lit htr _⟩
    · simp only [if_neg hB]
      by_cases hC : (st.mask <<< 1) % 256 = 0 <;>
        simp only [if_pos, if_neg, hC, if_true, if_false] <;>
        exact ⟨⟨hc, hmp, hml⟩, TraceOK_append_ref htr hmp (by omega) hml⟩

theorem CInv_advanceStep {src : List Nat} {st : CompState} (h : CInv st) :
    CInv (advanceStep src st) := by
  obtain ⟨hsp, htr⟩ := h
  unfold advanceStep
  dsimp only
  refine ⟨?_, htr⟩
  apply SpInv_insertNode
  · obtain ⟨⟨hL, hR⟩, hmp, hml⟩ := SpInv_deleteNode st.s hsp
    exact ⟨⟨hL, hR⟩, hmp, hml⟩
  · calc (st.r + 1) &&& (n - 1) ≤ n - 1 := Nat.and_le_right
    _ ≤ n := by omega

theorem CInv_advanceLoop {src : List Nat} :
    ∀ (k : Nat) (st : CompState), CInv st → CInv (advanceLoop src k st).1 := by
  intro k
  induction k with
  | zero => intro st h; exact h
  | succ k ih =>
    intro st h
    unfold advanceLoop
    by_cases hc : st.srcPos < src.length
    · simp only [if_pos hc]
      exact ih _ (CInv_advanceStep h)
    · simp only [if_neg hc]
      exact h

theorem CInv_drainStep {st : CompState} (h : CInv st) : CInv (drainStep st) := by
  obtain ⟨hsp, htr⟩ := h
  unfold drainStep
  dsimp only
  refine ⟨?_, htr⟩
  split
  · apply SpInv_insertNode (SpInv_deleteNode st.s hsp)
    calc (st.r + 1) &&& (n - 1) ≤ n - 1 := Nat.and_le_right
    _ ≤ n := by omega
  · exact SpInv_deleteNode st.s hsp

theorem CInv_drainLoop : ∀ (k : Nat) (st : CompState), CInv st → CInv (drainLoop k st) := by
  intro k
  induction k with
  | zero => intro st h; exact h
  | succ k ih =>
    intro st h
    exact ih _ (CInv_drainStep h)

theorem CInv_compressStep {src : List Nat} {st : CompState} (h : CInv st) :
    CInv (compressStep src st) :=
  CInv_drainLoop _ _ (CInv_advanceLoop _ _ (CInv_emitStep h))

theorem CInv_compressLoop {src : List Nat} :
    ∀ (fuel : Nat) (st : CompState), CInv st → CInv (compressLoop src fuel st) := by
  intro fuel
  induction fuel with
  | zero => intro st h; exact h
  | succ fuel ih =>
    intro st h
    unfold compressLoop
    dsimp only
    split
    · exact CInv_compressStep h
    · exact ih _ (CInv_compressStep h)

theorem SpInv_initState : SpInv initState := by
  refine ⟨⟨fun j => ?_, fun j => ?_⟩, ?_, ?_⟩
  · simp [initState]
  · simp only [initState]
    split <;> simp [nilIdx]
  · simp [initState, n]
  · simp [initState, f]

theorem SpInv_initialInserts {sp : EncodeState} {r : Nat} (h : SpInv sp) (hr : r ≤ n) :
    ∀ k, SpInv (initialInserts sp r k) := by
  intro k
  induction k with
  | zero => exact h
  | succ k ih =>
    exact SpInv_insertNode ih (by omega)

theorem SpInv_initSp (src : List Nat) : SpInv (initSp src) := by
  unfold initSp
  apply SpInv_insertNode ?_ (show n - f ≤ n by omega)
  apply SpInv_initialInserts ?_ (show n - f ≤ n by omega)
  have h0 := SpInv_initState
  exact ⟨⟨h0.1.1, h0.1.2⟩, h0.2.1, h0.2.2⟩

theorem CInv_initCompState (src : List Nat) : CInv (initCompState src) := by
  unfold CInv initCompState
  dsimp only
  exact ⟨SpInv_initSp src, TraceOK_nil⟩

theorem CInv_compressRun (src : List Nat) : CInv (compressRun src) :=
  CInv_compressLoop _ _ (CInv_initCompState src)

theorem traceOK_compressTokens (src : List Nat) : TraceOK (compressTokens src) := by
  unfold compressTokens
  split
  · exact TraceOK_nil
  · split
    · exact TraceOK_nil
    · exact (CInv_compressRun src).2

theorem traceCodec_compressTokens (src : List Nat) : TraceCodec (compressTokens src) := by
  intro p l hm
  obtain ⟨h3, hf, hp⟩ := traceOK_compressTokens src p l hm
  exact ⟨rfl, (refCodec p l hp h3 hf).1, (refCodec p l hp h3 hf).2⟩

/-!
## Claim C5 and claim C3
-/

/-- C5: for every input, every reference token `Compress` emits encodes a
match length between `threshold + 1 = 3` and `f = 18` inclusive (and a
position inside the ring buffer); matches of length 1 or 2 are emitted as
literal tokens, since the encoder takes the literal branch whenever
`matchLength <= threshold`. -/
theorem claim_C5_match_length_bounds (src : List Nat) : TraceOK (compressTokens src) :=
  traceOK_compressTokens src

/-- C3: every reference token `Compress` emits is exactly the 2 bytes
`refByte0` (low 8 bits of the position) and `refByte1` (high nibble = top 4
bits of the position, low nibble = length - 3), and the decoder's `refPos`
and `refLen` reconstruct the same position and the same copy length. -/
theorem claim_C3_ref_token_codec (src : List Nat) : TraceCodec (compressTokens src) :=
  traceCodec_compressTokens src


theorem advanceStep_outputs (src : List Nat) (st : CompState) :
    (advanceStep src st).dst = st.dst ∧ (advanceStep src st).codeBuf = st.codeBuf ∧
    (advanceStep src st).codeBufPtr = st.codeBufPtr ∧ (advanceStep src st).mask = st.mask :=
  ⟨rfl, rfl, rfl, rfl⟩

theorem advanceLoop_outputs (src : List Nat) :
    ∀ (k : Nat) (st : CompState),
      (advanceLoop src k st).1.dst = st.dst ∧ (advanceLoop src k st).1.codeBuf = st.codeBuf ∧
      (advanceLoop src k st).1.codeBufPtr = st.codeBufPtr ∧
      (advanceLoop src k st).1.mask = st.mask := by
  intro k
  induction k with
  | zero =>
    intro st
    unfold advanceLoop
    exact ⟨rfl, rfl, rfl, rfl⟩
  | succ k ih =>
    intro st
    unfold advanceLoop
    by_cases hc : st.srcPos < src.length
    · simp only [if_pos hc]
      exact ih (advanceStep src st)
    · simp only [if_neg hc]
      refine ⟨?_, ?_, ?_, ?_⟩ <;> trivial

theorem drainStep_outputs (st : CompState) :
    (drainStep st).dst = st.dst ∧ (drainStep st).codeBuf = st.codeBuf ∧
    (drainStep st).codeBufPtr = st.codeBufPtr ∧ (drainStep st).mask = st.mask :=
  ⟨rfl, rfl, rfl, rfl⟩

theorem drainLoop_outputs : ∀ (k : Nat) (st : CompState),
    (drainLoop k st).dst = st.dst ∧ (drainLoop k st).codeBuf = st.codeBuf ∧
    (drainLoop k st).codeBufPtr = st.codeBufPtr ∧ (drainLoop k st).mask = st.mask := by
  intro k
  induction k with
  | zero =>
    intro st
    unfold drainLoop
    exact ⟨rfl, rfl, rfl, rfl⟩
  | succ k ih =>
    intro st
    unfold drainLoop
    exact ih (drainStep st)

theorem pow_shift_mod (m : Nat) (hm : m < 7) : ((2 ^ m) <<< 1) % 256 = 2 ^ (m + 1) := by
  rw [Nat.shiftLeft_eq, pow_one]
  have h1 : 2 ^ m * 2 = 2 ^ (m + 1) := by rw [pow_succ]
  rw [h1]
  apply Nat.mod_eq_of_lt
  calc 2 ^ (m + 1) ≤ 2 ^ 7 := Nat.pow_le_pow_right (by omega) (by omega)
  _ < 256 := by omega

theorem emitStep_C7 {src : List Nat} {st : CompState} (h : C7Inv src st)
    (hd : 1 ≤ st.dataLen) :
    (emitStep st).codeBuf.length = 17 ∧ (emitStep st).srcPos = st.srcPos ∧
    (emitStep st).dataLen = st.dataLen ∧ (emitStep st).sp.matchLength ≤ st.dataLen ∧
    ∃ m1, m1 < 8 ∧ (emitStep st).mask = 2 ^ m1 ∧ m1 + 1 ≤ (emitStep st).codeBufPtr ∧
      (emitStep st).codeBufPtr ≤ 2 * m1 + 1 ∧
      8 * (emitStep st).dst.length + 9 * ((emitStep st).codeBufPtr - 1) + 9 * st.dataLen ≤
        9 * st.srcPos + 9 * (emitStep st).sp.matchLength := by
  obtain ⟨hcb, hsl, m, hm8, hmask, hm1, hm2, hsum⟩ := h
  have hflush : (st.mask <<< 1) % 256 = 0 ∨
      ((st.mask <<< 1) % 256 = 2 ^ (m + 1) ∧ m < 7 ∧ (st.mask <<< 1) % 256 ≠ 0) := by
    by_cases hm7 : m = 7
    · left
      rw [hmask, hm7]
      decide
    · right
      rw [hmask, pow_shift_mod m (by omega)]
      refine ⟨rfl, by omega, ?_⟩
      positivity
  unfold emitStep
  dsimp only
  by_cases hA : st.dataLen < st.sp.matchLength
  · simp only [if_pos hA]
    by_cases hB : st.dataLen ≤ threshold
    · simp only [if_pos hB]
      rcases hflush with hC | ⟨hC, hm7, hC'⟩
      · simp only [if_pos hC]
        have hm77 : m = 7 := by
          by_contra hne
          rw [hmask, pow_shift_mod m (by omega)] at hC
          have := Nat.pos_pow_of_pos (m + 1) (show 0 < 2 by omega)
          omega
        refine ⟨?_, trivial, trivial, by (try dsimp only); omega, 0, by omega, by simp, by omega, by omega, ?_⟩
        · (try dsimp only)
          rw [length_setI, length_setI, length_setI, hcb]
        · (try dsimp only)
          rw [List.length_append, List.length_take, length_setI, length_setI, hcb]
          omega
      · simp only [if_neg hC']
        refine ⟨?_, trivial, trivial, by (try dsimp only); omega, m + 1, by omega, hC,
          by (try dsimp only); omega, by (try dsimp only); omega, ?_⟩
        · (try dsimp only)
          rw [length_setI, length_setI, hcb]
        · (try dsimp only)
          omega
    · simp only [if_neg hB]
      rcases hflush with hC | ⟨hC, hm7, hC'⟩
      · simp only [if_pos hC]
        have hm77 : m = 7 := by
          by_contra hne
          rw [hmask, pow_shift_mod m (by omega)] at hC
          have := Nat.pos_pow_of_pos (m + 1) (show 0 < 2 by omega)
          omega
        refine ⟨?_, trivial, trivial, by (try dsimp only); omega, 0, by omega, by simp, by omega, by omega, ?_⟩
        · (try dsimp only)
          rw [length_setI, length_setI, length_setI, hcb]
        · (try dsimp only)
          rw [List.length_append, List.length_take, length_setI, length_setI, hcb]
          simp only [threshold] at hB
          omega
      · simp only [if_neg hC']
        refine ⟨?_, trivial, trivial, by (try dsimp only); omega, m + 1, by omega, hC,
          by (try dsimp only); omega, by (try dsimp only); omega, ?_⟩
        · (try dsimp only)
          rw [length_setI, length_setI, hcb]
        · (try dsimp only)
          simp only [threshold] at hB
          omega
  · simp only [if_neg hA]
    by_cases hB : st.sp.matchLength ≤ threshold
    · simp only [if_pos hB]
      rcases hflush with hC | ⟨hC, hm7, hC'⟩
      · simp only [if_pos hC]
        have hm77 : m = 7 := by
          by_contra hne
          rw [hmask, pow_shift_mod m (by omega)] at hC
          have := Nat.pos_pow_of_pos (m + 1) (show 0 < 2 by omega)
          omega
        refine ⟨?_, trivial, trivial, by (try dsimp only); omega, 0, by omega, by simp, by omega, by omega, ?_⟩
        · (try dsimp only)
          rw [length_setI, length_setI, length_setI, hcb]
        · (try dsimp only)
          rw [List.length_append, List.length_take, length_setI, length_setI, hcb]
          omega
      · simp only [if_neg hC']
        refine ⟨?_, trivial, trivial, by (try dsimp only); omega, m + 1, by omega, hC,
          by (try dsimp only); omega, by (try dsimp only); omega, ?_⟩
        · (try dsimp only)
          rw [length_setI, length_setI, hcb]
        · (try dsimp only)
          omega
    · simp only [if_neg hB]
      rcases hflush with hC | ⟨hC, hm7, hC'⟩
      · simp only [if_pos hC]
        have hm77 : m = 7 := by
          by_contra hne
          rw [hmask, pow_shift_mod m (by omega)] at hC
          have := Nat.pos_pow_of_pos (m + 1) (show 0 < 2 by omega)
          omega
        refine ⟨?_, trivial, trivial, by (try dsimp only); omega, 0, by omega, by simp, by omega, by omega, ?_⟩
        · (try dsimp only)
          rw [length_setI, length_setI, length_setI, hcb]
        · (try dsimp only)
          rw [List.length_append, List.length_take, length_setI, length_setI, hcb]
          simp only [threshold] at hB
          omega
      · simp only [if_neg hC']
        refine ⟨?_, trivial, trivial, by (try dsimp only); omega, m + 1, by omega, hC,
          by (try dsimp only); omega, by (try dsimp only); omega, ?_⟩
        · (try dsimp only)
          rw [length_setI, length_setI, hcb]
        · (try dsimp only)
          simp only [threshold] at hB
          omega

theorem compressStep_C7 {src : List Nat} {st : CompState} (h : C7Inv src st)
    (hd : 1 ≤ st.dataLen) : C7Inv src (compressStep src st) := by
  obtain ⟨hcb1, hsp1, hdl1, hml1, m1, hm18, hmask1, hma, hmb, hsum1⟩ := emitStep_C7 h hd
  have hsl : st.srcPos ≤ src.length := h.2.1
  obtain ⟨ha1, ha2, ha3, ha4⟩ := advanceLoop_spec src (emitStep st).sp.matchLength (emitStep st)
  obtain ⟨hao1, hao2, hao3, hao4⟩ :=
    advanceLoop_outputs src (emitStep st).sp.matchLength (emitStep st)
  obtain ⟨hdr1, hdr2⟩ := drainLoop_spec
    (advanceLoop src (emitStep st).sp.matchLength (emitStep st)).2
    (advanceLoop src (emitStep st).sp.matchLength (emitStep st)).1
  obtain ⟨hdo1, hdo2, hdo3, hdo4⟩ := drainLoop_outputs
    (advanceLoop src (emitStep st).sp.matchLength (emitStep st)).2
    (advanceLoop src (emitStep st).sp.matchLength (emitStep st)).1
  unfold compressStep
  dsimp only
  refine ⟨?_, ?_, m1, hm18, ?_, ?_, ?_, ?_⟩
  · rw [hdo2, hao2]
    exact hcb1
  · rw [hdr2]
    omega
  · rw [hdo4, hao4]
    exact hmask1
  · rw [hdo3, hao3]
    exact hma
  · rw [hdo3, hao3]
    exact hmb
  · rw [hdo1, hao1, hdo3, hao3, hdr1, hdr2, ha1, ha2, hsp1, hdl1]
    omega

theorem compressLoop_C7 {src : List Nat} :
    ∀ (fuel : Nat) (st : CompState), C7Inv src st → 1 ≤ st.dataLen →
      C7Inv src (compressLoop src fuel st) := by
  intro fuel
  induction fuel with
  | zero => intro st h _; exact h
  | succ fuel ih =>
    intro st h hd
    unfold compressLoop
    dsimp only
    by_cases hc : (compressStep src st).dataLen = 0
    · simp only [if_pos hc]
      exact compressStep_C7 h hd
    · simp only [if_neg hc]
      exact ih _ (compressStep_C7 h hd) (by omega)

theorem C7Inv_initCompState (src : List Nat) : C7Inv src (initCompState src) := by
  unfold C7Inv initCompState
  dsimp only
  refine ⟨by simp, by omega, 0, by omega, by simp, by omega, by omega, by simp⟩

/-!
## Claim C7
-/

/-- C7: the length of `Compress src` is bounded by 9/8 of the input length
plus one byte (scaled to stay in natural numbers: `8·|out| ≤ 9·|src| + 8`);
the worst case is one control byte per 8 literal tokens, so output never
expands catastrophically. -/
theorem claim_C7_size_bound (src : List Nat) : 8 * (Compress src).length ≤ 9 * src.length + 8 := by
  unfold Compress
  split
  · simp
  · split
    · simp
    · obtain ⟨hcb, hsl, m, hm8, hmask, hm1, hm2, hsum⟩ :=
        compressLoop_C7 (src.length + f + 1) (initCompState src) (C7Inv_initCompState src)
          (by dsimp only [initCompState]; omega)
      show 8 * (if 1 < (compressRun src).codeBufPtr then
        (compressRun src).dst ++ (compressRun src).codeBuf.take (compressRun src).codeBufPtr
        else (compressRun src).dst).length ≤ 9 * src.length + 8
      have he : compressRun src =
          compressLoop src (src.length + f + 1) (initCompState src) := rfl
      rw [he]
      split
      · rw [List.length_append, List.length_take, hcb]
        omega
      · omega

theorem packTokens_cons (t : Token) (ts : List Token) :
    packTokens (t :: ts) =
      (controlByte ((t :: ts).take 8) :: ((t :: ts).take 8).flatMap tokenBytes)
        ++ packTokens (ts.drop 7) := by
  rw [packTokens]

theorem tokenBytes_len_le (t : Token) : (tokenBytes t).length ≤ 2 := by
  cases t <;> simp [tokenBytes]

theorem tokenBytes_len_ge (t : Token) : 1 ≤ (tokenBytes t).length := by
  cases t <;> simp [tokenBytes]

theorem flatMap_len_le (ts : List Token) : (ts.flatMap tokenBytes).length ≤ 2 * ts.length := by
  induction ts with
  | nil => simp
  | cons t ts ih =>
    rw [List.flatMap_cons, List.length_append]
    have := tokenBytes_len_le t
    simp only [List.length_cons]
    omega

theorem flatMap_len_ge (ts : List Token) : ts.length ≤ (ts.flatMap tokenBytes).length := by
  induction ts with
  | nil => simp
  | cons t ts ih =>
    rw [List.flatMap_cons, List.length_append]
    have := tokenBytes_len_ge t
    simp only [List.length_cons]
    omega

theorem tokenBit_le (t : Token) : tokenBit t ≤ 1 := by
  cases t <;> simp [tokenBit]

theorem controlByte_lt (ts : List Token) : controlByte ts < 2 ^ ts.length := by
  induction ts with
  | nil => simp [controlByte]
  | cons t ts ih =>
    have hb := tokenBit_le t
    simp only [controlByte, List.length_cons, pow_succ]
    omega

theorem controlByte_snoc (ts : List Token) (t : Token) :
    controlByte (ts ++ [t]) = controlByte ts + tokenBit t * 2 ^ ts.length := by
  induction ts with
  | nil => simp [controlByte]
  | cons x ts ih =>
    simp only [List.cons_append, controlByte, List.append_eq]
    rw [ih]
    simp only [List.length_cons, pow_succ]
    ring

set_option maxRecDepth 2000 in
theorem lor_two_pow : ∀ k : Nat, k < 8 → ∀ a : Nat, a < 2 ^ k → a ||| 2 ^ k = a + 2 ^ k := by
  decide

theorem packTokens_single (ts : List Token) (h1 : ts ≠ []) (h8 : ts.length ≤ 8) :
    packTokens ts = controlByte ts :: ts.flatMap tokenBytes := by
  cases ts with
  | nil => simp at h1
  | cons t tl =>
    rw [packTokens_cons]
    have htake : (t :: tl).take 8 = t :: tl := List.take_of_length_le h8
    have hdrop : tl.drop 7 = [] := List.drop_eq_nil_of_le (by
      simp only [List.length_cons] at h8
      omega)
    rw [htake, hdrop]
    simp [packTokens]

theorem packTokens_group (g rest : List Token) (hg : g.length = 8) :
    packTokens (g ++ rest) = (controlByte g :: g.flatMap tokenBytes) ++ packTokens rest := by
  cases g with
  | nil => simp at hg
  | cons t tl =>
    rw [List.cons_append, packTokens_cons]
    have h1 : (t :: (tl ++ rest)).take 8 = t :: tl := by
      have : (8 : Nat) = (t :: tl).length := by omega
      rw [show (t :: (tl ++ rest)) = (t :: tl) ++ rest from rfl, this, List.take_left]
    have h2 : (tl ++ rest).drop 7 = rest := by
      have : (7 : Nat) = tl.length := by
        simp only [List.length_cons] at hg
        omega
      rw [this, List.drop_left]
    rw [h1, h2]

theorem packTokens_append_groups :
    ∀ (k : Nat) (done rest : List Token), done.length = 8 * k →
      packTokens (done ++ rest) = packTokens done ++ packTokens rest := by
  intro k
  induction k with
  | zero =>
    intro done rest h
    have : done = [] := List.eq_nil_of_length_eq_zero (by omega)
    subst this
    simp [packTokens]
  | succ k ih =>
    intro done rest h
    have h8 : (done.take 8).length = 8 := by
      rw [List.length_take]
      omega
    have hsplit : done.take 8 ++ done.drop 8 = done := List.take_append_drop 8 done
    calc packTokens (done ++ rest)
        = packTokens (done.take 8 ++ (done.drop 8 ++ rest)) := by
          rw [← List.append_assoc, hsplit]
      _ = (controlByte (done.take 8) :: (done.take 8).flatMap tokenBytes)
            ++ packTokens (done.drop 8 ++ rest) := packTokens_group _ _ h8
      _ = (controlByte (done.take 8) :: (done.take 8).flatMap tokenBytes)
            ++ (packTokens (done.drop 8) ++ packTokens rest) := by
          rw [ih (done.drop 8) rest (by rw [List.length_drop]; omega)]
      _ = packTokens done ++ packTokens rest := by
          rw [← List.append_assoc, ← packTokens_group _ _ h8, hsplit]

theorem setI_zero_cons (c v : Nat) (l : List Nat) : setI (c :: l) 0 v = v :: l := rfl

theorem take_setI_snoc {l : List Nat} {i : Nat} (v : Nat) (h : i < l.length) :
    (setI l i v).take (i + 1) = l.take i ++ [v] := by
  unfold setI
  rw [List.set_eq_take_cons_drop v h]
  have hlen : (l.take i).length = i := by
    rw [List.length_take]
    omega
  calc (l.take i ++ v :: l.drop (i + 1)).take (i + 1)
      = (l.take i ++ v :: l.drop (i + 1)).take ((l.take i).length + 1) := by rw [hlen]
    _ = l.take i ++ (v :: l.drop (i + 1)).take 1 := by rw [List.take_append]
    _ = l.take i ++ [v] := by simp

theorem take_one_setI_zero (l : List Nat) (v : Nat) (h : l ≠ []) :
    (setI l 0 v).take 1 = [v] := by
  cases l with
  | nil => simp at h
  | cons a l => rfl

theorem codeBuf_split {cb : List Nat} {k : Nat} {c0 : Nat} {rest : List Nat}
    (h : cb.take (1 + k) = c0 :: rest) :
    ∃ cbtl, cb = c0 :: cbtl ∧ cbtl.take k = rest := by
  cases cb with
  | nil => simp at h
  | cons c ctl =>
    rw [Nat.add_comm, List.take_succ_cons] at h
    injection h with h1 h2
    exact ⟨ctl, by rw [h1], h2⟩

theorem lit_write_take {cb : List Nat} {part : List Token} (b : Nat)
    (hlen : cb.length = 17) (hp8 : part.length < 8)
    (htake : cb.take (1 + (part.flatMap tokenBytes).length) =
      controlByte part :: part.flatMap tokenBytes) :
    (setI (setI cb 0 (getI cb 0 ||| 2 ^ part.length))
        (1 + (part.flatMap tokenBytes).length) b).take
      (1 + (part.flatMap tokenBytes).length + 1) =
      controlByte (part ++ [Token.lit b]) ::
        (part ++ [Token.lit b]).flatMap tokenBytes := by
  obtain ⟨cbtl, hcb, htl⟩ := codeBuf_split htake
  have hbl : (part.flatMap tokenBytes).length ≤ 14 := by
    have := flatMap_len_le part
    omega
  have hg0 : getI cb 0 = controlByte part := by
    rw [hcb]
    rfl
  have hv : getI cb 0 ||| 2 ^ part.length = controlByte (part ++ [Token.lit b]) := by
    rw [hg0, lor_two_pow part.length hp8 _ (controlByte_lt part), controlByte_snoc]
    simp [tokenBit]
  rw [hv, hcb, setI_zero_cons]
  have hlt : 1 + (part.flatMap tokenBytes).length <
      (controlByte (part ++ [Token.lit b]) :: cbtl).length := by
    simp only [List.length_cons]
    rw [hcb] at hlen
    simp only [List.length_cons] at hlen
    omega
  rw [take_setI_snoc b hlt]
  rw [Nat.add_comm 1 (part.flatMap tokenBytes).length, List.take_succ_cons]
  rw [htl, List.flatMap_append]
  simp [tokenBytes]

theorem ref_write_take {cb : List Nat} {part : List Token} (p l : Nat)
    (hlen : cb.length = 17) (hp8 : part.length < 8)
    (htake : cb.take (1 + (part.flatMap tokenBytes).length) =
      controlByte part :: part.flatMap tokenBytes) :
    (setI (setI cb (1 + (part.flatMap tokenBytes).length) (refByte0 p))
        (1 + (part.flatMap tokenBytes).length + 1) (refByte1 p l)).take
      (1 + (part.flatMap tokenBytes).length + 2) =
      controlByte (part ++ [Token.ref p l]) ::
        (part ++ [Token.ref p l]).flatMap tokenBytes := by
  have hbl : (part.flatMap tokenBytes).length ≤ 14 := by
    have := flatMap_len_le part
    omega
  have hlt1 : 1 + (part.flatMap tokenBytes).length < cb.length := by omega
  have hlt2 : 1 + (part.flatMap tokenBytes).length + 1 <
      (setI cb (1 + (part.flatMap tokenBytes).length) (refByte0 p)).length := by
    rw [length_setI]
    omega
  have hc : controlByte (part ++ [Token.ref p l]) = controlByte part := by
    rw [controlByte_snoc]
    simp [tokenBit]
  have h2 : 1 + (part.flatMap tokenBytes).length + 2 =
      (1 + (part.flatMap tokenBytes).length + 1) + 1 := by omega
  rw [h2, take_setI_snoc _ hlt2, take_setI_snoc _ hlt1, htake, hc, List.flatMap_append]
  simp [tokenBytes]

theorem PackInv_emitStep {st : CompState} (h : PackInv st) : PackInv (emitStep st) := by
  obtain ⟨done, part, htk, hd8, hp8, hdst, hmask, hcbl, hptr, htake⟩ := h
  rw [hptr] at htake
  have hflush : ((st.mask <<< 1) % 256 = 0 ∧ part.length = 7) ∨
      ((st.mask <<< 1) % 256 = 2 ^ (part.length + 1) ∧ part.length < 7 ∧
        (st.mask <<< 1) % 256 ≠ 0) := by
    by_cases hm7 : part.length = 7
    · left
      constructor
      · rw [hmask, hm7]
        decide
      · exact hm7
    · right
      rw [hmask, pow_shift_mod part.length (by omega)]
      refine ⟨rfl, by omega, by positivity⟩
  have hdone : done.length = 8 * (done.length / 8) := by omega
  unfold emitStep
  dsimp only
  by_cases hA : st.dataLen < st.sp.matchLength
  · simp only [if_pos hA]
    by_cases hB : st.dataLen ≤ threshold
    · simp only [if_pos hB]
      rcases hflush with ⟨hC, hm7⟩ | ⟨hCv, hm7, hC2⟩
      · simp only [if_pos hC]
        refine ⟨done ++ (part ++ [Token.lit (st.sp.textBuf st.r)]), [], ?_, ?_, by decide, ?_, by simp, ?_, by simp, ?_⟩
        · show st.toks ++ [Token.lit (st.sp.textBuf st.r)] = done ++ (part ++ [Token.lit (st.sp.textBuf st.r)]) ++ []
          rw [htk]
          simp [List.append_assoc]
        · simp only [List.length_append, List.length_singleton]
          omega
        · show st.dst ++ (setI (setI st.codeBuf 0 (getI st.codeBuf 0 ||| st.mask))
              st.codeBufPtr (st.sp.textBuf st.r)).take (st.codeBufPtr + 1) =
            packTokens (done ++ (part ++ [Token.lit (st.sp.textBuf st.r)]))
          rw [hmask, hptr, hdst, lit_write_take (st.sp.textBuf st.r) hcbl hp8 htake,
            ← packTokens_single (part ++ [Token.lit (st.sp.textBuf st.r)]) (by simp)
              (by simp only [List.length_append, List.length_singleton]; omega),
            ← packTokens_append_groups (done.length / 8) done _ hdone]
        · rw [length_setI, length_setI, length_setI, hcbl]
        · show (setI (setI (setI st.codeBuf 0 (getI st.codeBuf 0 ||| st.mask))
              st.codeBufPtr (st.sp.textBuf st.r)) 0 0).take 1 = controlByte [] :: List.flatMap [] tokenBytes
          rw [take_one_setI_zero]
          · simp [controlByte]
          · have hlcb : (setI (setI st.codeBuf 0 (getI st.codeBuf 0 ||| st.mask))
                st.codeBufPtr (st.sp.textBuf st.r)).length = 17 := by
              rw [length_setI, length_setI, hcbl]
            intro hnil
            rw [hnil] at hlcb
            simp at hlcb
      · simp only [if_neg hC2]
        refine ⟨done, part ++ [Token.lit (st.sp.textBuf st.r)], ?_, hd8, ?_, hdst, ?_, ?_, ?_, ?_⟩
        · show st.toks ++ [Token.lit (st.sp.textBuf st.r)] = done ++ (part ++ [Token.lit (st.sp.textBuf st.r)])
          rw [htk, List.append_assoc]
        · simp only [List.length_append, List.length_singleton]
          omega
        · show (st.mask <<< 1) % 256 = 2 ^ (part ++ [Token.lit (st.sp.textBuf st.r)]).length
          rw [hCv]
          simp
        · rw [length_setI, length_setI, hcbl]
        · show st.codeBufPtr + 1 = 1 + ((part ++ [Token.lit (st.sp.textBuf st.r)]).flatMap tokenBytes).length
          rw [hptr, List.flatMap_append]
          simp only [List.flatMap_cons, List.flatMap_nil, List.append_nil, tokenBytes,
            List.length_append, List.length_cons, List.length_nil]
          omega
        · show (setI (setI st.codeBuf 0 (getI st.codeBuf 0 ||| st.mask))
              st.codeBufPtr (st.sp.textBuf st.r)).take (st.codeBufPtr + 1) =
            controlByte (part ++ [Token.lit (st.sp.textBuf st.r)]) ::
              (part ++ [Token.lit (st.sp.textBuf st.r)]).flatMap tokenBytes
          rw [hmask, hptr]
          exact lit_write_take (st.sp.textBuf st.r) hcbl hp8 htake
    · simp only [if_neg hB]
      rcases hflush with ⟨hC, hm7⟩ | ⟨hCv, hm7, hC2⟩
      · simp only [if_pos hC]
        refine ⟨done ++ (part ++ [Token.ref st.sp.matchPosition st.dataLen]), [], ?_, ?_, by decide, ?_, by simp, ?_, by simp, ?_⟩
        · show st.toks ++ [Token.ref st.sp.matchPosition st.dataLen] = done ++ (part ++ [Token.ref st.sp.matchPosition st.dataLen]) ++ []
          rw [htk]
          simp [List.append_assoc]
        · simp only [List.length_append, List.length_singleton]
          omega
        · show st.dst ++ (setI (setI st.codeBuf st.codeBufPtr (refByte0 st.sp.matchPosition))
              (st.codeBufPtr + 1) (refByte1 st.sp.matchPosition st.dataLen)).take (st.codeBufPtr + 2) =
            packTokens (done ++ (part ++ [Token.ref st.sp.matchPosition st.dataLen]))
          rw [hptr, hdst, ref_write_take st.sp.matchPosition st.dataLen hcbl hp8 htake,
            ← packTokens_single (part ++ [Token.ref st.sp.matchPosition st.dataLen]) (by simp)
              (by simp only [List.length_append, List.length_singleton]; omega),
            ← packTokens_append_groups (done.length / 8) done _ hdone]
        · rw [length_setI, length_setI, length_setI, hcbl]
        · show (setI (setI (setI st.codeBuf st.codeBufPtr (refByte0 st.sp.matchPosition))
              (st.codeBufPtr + 1) (refByte1 st.sp.matchPosition st.dataLen)) 0 0).take 1 =
            controlByte [] :: List.flatMap [] tokenBytes
          rw [take_one_setI_zero]
          · simp [controlByte]
          · have hlcb : (setI (setI st.codeBuf st.codeBufPtr (refByte0 st.sp.matchPosition))
                (st.codeBufPtr + 1) (refByte1 st.sp.matchPosition st.dataLen)).length = 17 := by
              rw [length_setI, length_setI, hcbl]
            intro hnil
            rw [hnil] at hlcb
            simp at hlcb
      · simp only [if_neg hC2]
        refine ⟨done, part ++ [Token.ref st.sp.matchPosition st.dataLen], ?_, hd8, ?_, hdst, ?_, ?_, ?_, ?_⟩
        · show st.toks ++ [Token.ref st.sp.matchPosition st.dataLen] = done ++ (part ++ [Token.ref st.sp.matchPosition st.dataLen])
          rw [htk, List.append_assoc]
        · simp only [List.length_append, List.length_singleton]
          omega
        · show (st.mask <<< 1) % 256 = 2 ^ (part ++ [Token.ref st.sp.matchPosition st.dataLen]).length
          rw [hCv]
          simp
        · rw [length_setI, length_setI, hcbl]
        · show st.codeBufPtr + 2 = 1 + ((part ++ [Token.ref st.sp.matchPosition st.dataLen]).flatMap tokenBytes).length
          rw [hptr, List.flatMap_append]
          simp only [List.flatMap_cons, List.flatMap_nil, List.append_nil, tokenBytes,
            List.length_append, List.length_cons, List.length_nil]
          omega
        · show (setI (setI st.codeBuf st.codeBufPtr (refByte0 st.sp.matchPosition))
              (st.codeBufPtr + 1) (refByte1 st.sp.matchPosition st.dataLen)).take (st.codeBufPtr + 2) =
            controlByte (part ++ [Token.ref st.sp.matchPosition st.dataLen]) ::
              (part ++ [Token.ref st.sp.matchPosition st.dataLen]).flatMap tokenBytes
          rw [hptr]
          exact ref_write_take st.sp.matchPosition st.dataLen hcbl hp8 htake
  · simp only [if_neg hA]
    by_cases hB : st.sp.matchLength ≤ threshold
    · simp only [if_pos hB]
      rcases hflush with ⟨hC, hm7⟩ | ⟨hCv, hm7, hC2⟩
      · simp only [if_pos hC]
        refine ⟨done ++ (part ++ [Token.lit (st.sp.textBuf st.r)]), [], ?_, ?_, by decide, ?_, by simp, ?_, by simp, ?_⟩
        · show st.toks ++ [Token.lit (st.sp.textBuf st.r)] = done ++ (part ++ [Token.lit (st.sp.textBuf st.r)]) ++ []
          rw [htk]
          simp [List.append_assoc]
        · simp only [List.length_append, List.length_singleton]
          omega
        · show st.dst ++ (setI (setI st.codeBuf 0 (getI st.codeBuf 0 ||| st.mask))
              st.codeBufPtr (st.sp.textBuf st.r)).take (st.codeBufPtr + 1) =
            packTokens (done ++ (part ++ [Token.lit (st.sp.textBuf st.r)]))
          rw [hmask, hptr, hdst, lit_write_take (st.sp.textBuf st.r) hcbl hp8 htake,
            ← packTokens_single (part ++ [Token.lit (st.sp.textBuf st.r)]) (by simp)
              (by simp only [List.length_append, List.length_singleton]; omega),
            ← packTokens_append_groups (done.length / 8) done _ hdone]
        · rw [length_setI, length_setI, length_setI, hcbl]
        · show (setI (setI (setI st.codeBuf 0 (getI st.codeBuf 0 ||| st.mask))
              st.codeBufPtr (st.sp.textBuf st.r)) 0 0).take 1 = controlByte [] :: List.flatMap [] tokenBytes
          rw [take_one_setI_zero]
          · simp [controlByte]
          · have hlcb : (setI (setI st.codeBuf 0 (getI st.codeBuf 0 ||| st.mask))
                st.codeBufPtr (st.sp.textBuf st.r)).length = 17 := by
              rw [length_setI, length_setI, hcbl]
            intro hnil
            rw [hnil] at hlcb
            simp at hlcb
      · simp only [if_neg hC2]
        refine ⟨done, part ++ [Token.lit (st.sp.textBuf st.r)], ?_, hd8, ?_, hdst, ?_, ?_, ?_, ?_⟩
        · show st.toks ++ [Token.lit (st.sp.textBuf st.r)] = done ++ (part ++ [Token.lit (st.sp.textBuf st.r)])
          rw [htk, List.append_assoc]
        · simp only [List.length_append, List.length_singleton]
          omega
        · show (st.mask <<< 1) % 256 = 2 ^ (part ++ [Token.lit (st.sp.textBuf st.r)]).length
          rw [hCv]
          simp
        · rw [length_setI, length_setI, hcbl]
        · show st.codeBufPtr + 1 = 1 + ((part ++ [Token.lit (st.sp.textBuf st.r)]).flatMap tokenBytes).length
          rw [hptr, List.flatMap_append]
          simp only [List.flatMap_cons, List.flatMap_nil, List.append_nil, tokenBytes,
            List.length_append, List.length_cons, List.length_nil]
          omega
        · show (setI (setI st.codeBuf 0 (getI st.codeBuf 0 ||| st.mask))
              st.codeBufPtr (st.sp.textBuf st.r)).take (st.codeBufPtr + 1) =
            controlByte (part ++ [Token.lit (st.sp.textBuf st.r)]) ::
              (part ++ [Token.lit (st.sp.textBuf st.r)]).flatMap tokenBytes
          rw [hmask, hptr]
          exact lit_write_take (st.sp.textBuf st.r) hcbl hp8 htake
    · simp only [if_neg hB]
      rcases hflush with ⟨hC, hm7⟩ | ⟨hCv, hm7, hC2⟩
      · simp only [if_pos hC]
        refine ⟨done ++ (part ++ [Token.ref st.sp.matchPosition st.sp.matchLength]), [], ?_, ?_, by decide, ?_, by simp, ?_, by simp, ?_⟩
        · show st.toks ++ [Token.ref st.sp.matchPosition st.sp.matchLength] = done ++ (part ++ [Token.ref st.sp.matchPosition st.sp.matchLength]) ++ []
          rw [htk]
          simp [List.append_assoc]
        · simp only [List.length_append, List.length_singleton]
          omega
        · show st.dst ++ (setI (setI st.codeBuf st.codeBufPtr (refByte0 st.sp.matchPosition))
              (st.codeBufPtr + 1) (refByte1 st.sp.matchPosition st.sp.matchLength)).take (st.codeBufPtr + 2) =
            packTokens (done ++ (part ++ [Token.ref st.sp.matchPosition st.sp.matchLength]))
          rw [hptr, hdst, ref_write_take st.sp.matchPosition st.sp.matchLength hcbl hp8 htake,
            ← packTokens_single (part ++ [Token.ref st.sp.matchPosition st.sp.matchLength]) (by simp)
              (by simp only [List.length_append, List.length_singleton]; omega),
            ← packTokens_append_groups (done.length / 8) done _ hdone]
        · rw [length_setI, length_setI, length_setI, hcbl]
        · show (setI (setI (setI st.codeBuf st.codeBufPtr (refByte0 st.sp.matchPosition))
              (st.codeBufPtr + 1) (refByte1 st.sp.matchPosition st.sp.matchLength)) 0 0).take 1 =
            controlByte [] :: List.flatMap [] tokenBytes
          rw [take_one_setI_zero]
          · simp [controlByte]
          · have hlcb : (setI (setI st.codeBuf st.codeBufPtr (refByte0 st.sp.matchPosition))
                (st.codeBufPtr + 1) (refByte1 st.sp.matchPosition st.sp.matchLength)).length = 17 := by
              rw [length_setI, length_setI, hcbl]
            intro hnil
            rw [hnil] at hlcb
            simp at hlcb
      · simp only [if_neg hC2]
        refine ⟨done, part ++ [Token.ref st.sp.matchPosition st.sp.matchLength], ?_, hd8, ?_, hdst, ?_, ?_, ?_, ?_⟩
        · show st.toks ++ [Token.ref st.sp.matchPosition st.sp.matchLength] = done ++ (part ++ [Token.ref st.sp.matchPosition st.sp.matchLength])
          rw [htk, List.append_assoc]
        · simp only [List.length_append, List.length_singleton]
          omega
        · show (st.mask <<< 1) % 256 = 2 ^ (part ++ [Token.ref st.sp.matchPosition st.sp.matchLength]).length
          rw [hCv]
          simp
        · rw [length_setI, length_setI, hcbl]
        · show st.codeBufPtr + 2 = 1 + ((part ++ [Token.ref st.sp.matchPosition st.sp.matchLength]).flatMap tokenBytes).length
          rw [hptr, List.flatMap_append]
          simp only [List.flatMap_cons, List.flatMap_nil, List.append_nil, tokenBytes,
            List.length_append, List.length_cons, List.length_nil]
          omega
        · show (setI (setI st.codeBuf st.codeBufPtr (refByte0 st.sp.matchPosition))
              (st.codeBufPtr + 1) (refByte1 st.sp.matchPosition st.sp.matchLength)).take (st.codeBufPtr + 2) =
            controlByte (part ++ [Token.ref st.sp.matchPosition st.sp.matchLength]) ::
              (part ++ [Token.ref st.sp.matchPosition st.sp.matchLength]).flatMap tokenBytes
          rw [hptr]
          exact ref_write_take st.sp.matchPosition st.sp.matchLength hcbl hp8 htake


theorem advanceLoop_toks (src : List Nat) :
    ∀ (k : Nat) (st : CompState), (advanceLoop src k st).1.toks = st.toks := by
  intro k
  induction k with
  | zero => intro st; rfl
  | succ k ih =>
    intro st
    unfold advanceLoop
    by_cases hc : st.srcPos < src.length
    · simp only [if_pos hc]
      exact ih (advanceStep src st)
    · simp only [if_neg hc]

theorem drainLoop_toks : ∀ (k : Nat) (st : CompState), (drainLoop k st).toks = st.toks := by
  intro k
  induction k with
  | zero => intro st; rfl
  | succ k ih =>
    intro st
    exact ih (drainStep st)

theorem PackInv_of_eq {st st2 : CompState}
    (ht : st2.toks = st.toks) (hd : st2.dst = st.dst) (hcb : st2.codeBuf = st.codeBuf)
    (hp : st2.codeBufPtr = st.codeBufPtr) (hm : st2.mask = st.mask)
    (h : PackInv st) : PackInv st2 := by
  obtain ⟨done, part, h1, h2, h3, h4, h5, h6, h7, h8⟩ := h
  exact ⟨done, part, by rw [ht, h1], h2, h3, by rw [hd, h4], by rw [hm, h5],
    by rw [hcb, h6], by rw [hp, h7], by rw [hcb, hp]; exact h8⟩

theorem PackInv_advanceLoop (src : List Nat) (k : Nat) {st : CompState} (h : PackInv st) :
    PackInv (advanceLoop src k st).1 := by
  obtain ⟨hd, hcb, hp, hm⟩ := advanceLoop_outputs src k st
  exact PackInv_of_eq (advanceLoop_toks src k st) hd hcb hp hm h

theorem PackInv_drainLoop (k : Nat) {st : CompState} (h : PackInv st) :
    PackInv (drainLoop k st) := by
  obtain ⟨hd, hcb, hp, hm⟩ := drainLoop_outputs k st
  exact PackInv_of_eq (drainLoop_toks k st) hd hcb hp hm h

theorem PackInv_compressStep (src : List Nat) {st : CompState} (h : PackInv st) :
    PackInv (compressStep src st) :=
  PackInv_drainLoop _ (PackInv_advanceLoop _ _ (PackInv_emitStep h))

theorem PackInv_compressLoop (src : List Nat) :
    ∀ (fuel : Nat) (st : CompState), PackInv st → PackInv (compressLoop src fuel st) := by
  intro fuel
  induction fuel with
  | zero => intro st h; exact h
  | succ fuel ih =>
    intro st h
    unfold compressLoop
    dsimp only
    split
    · exact PackInv_compressStep src h
    · exact ih _ (PackInv_compressStep src h)

theorem PackInv_initCompState (src : List Nat) : PackInv (initCompState src) := by
  refine ⟨[], [], rfl, rfl, by decide, by simp [packTokens, initCompState], rfl, rfl, rfl, rfl⟩

theorem PackInv_compressRun (src : List Nat) : PackInv (compressRun src) :=
  PackInv_compressLoop src _ _ (PackInv_initCompState src)

/-- `Compress` is exactly the spec-side packing of the encoder token trace. -/
theorem pack_eq (src : List Nat) : Compress src = packTokens (compressTokens src) := by
  unfold Compress compressTokens
  by_cases h0 : src.length = 0
  · simp only [if_pos h0]
    simp [packTokens]
  · simp only [if_neg h0]
    by_cases h1 : min f src.length = 0
    · simp only [if_pos h1]
      simp [packTokens]
    · simp only [if_neg h1]
      obtain ⟨done, part, htk, hd8, hp8, hdst, hmask, hcbl, hptr, htake⟩ :=
        PackInv_compressRun src
      rw [htk]
      by_cases hpe : part = []
      · subst hpe
        simp only [List.flatMap_nil, List.length_nil, Nat.add_zero] at hptr
        rw [if_neg (by omega), hdst, List.append_nil]
      · have hlen1 : 1 ≤ part.length := by
          cases part with
          | nil => exact absurd rfl hpe
          | cons a l => simp
        have hge := flatMap_len_ge part
        rw [if_pos (by omega), hdst, htake,
          packTokens_append_groups (done.length / 8) done part (by omega),
          packTokens_single part hpe (by omega)]


theorem controlByte_testBit :
    ∀ (ts : List Token) (i : Nat) (h : i < ts.length),
      ((controlByte ts).testBit i = true ↔ tokenBit (ts.get ⟨i, h⟩) = 1) := by
  intro ts
  induction ts with
  | nil => intro i h; simp at h
  | cons t ts ih =>
    intro i h
    cases i with
    | zero =>
      have hb := tokenBit_le t
      simp only [controlByte, List.get]
      rw [Nat.testBit_zero]
      constructor
      · intro h2
        simp only [decide_eq_true_eq] at h2
        omega
      · intro h2
        simp only [decide_eq_true_eq]
        omega
    | succ i =>
      have hb := tokenBit_le t
      simp only [controlByte, List.get]
      rw [Nat.testBit_add_one]
      have hdiv : (tokenBit t + 2 * controlByte ts) / 2 = controlByte ts := by omega
      rw [hdiv]
      exact ih i (by simp only [List.length_cons] at h; omega)

/-- **C4.** In every output of `Compress`, tokens are packed in groups of at
most 8, each group prefixed by one control byte, with a group flushed after 8
tokens and any part trailing group flushed at end-of-stream (`Compress`
equals the spec-side `packTokens` of the token trace), and bit `i` (LSB
first) of a group's control byte is set exactly when token `i` of the group
is a literal and clear when it is a reference. -/
theorem claim_C4_control_byte_packing :
    (∀ src : List Nat, Compress src = packTokens (compressTokens src)) ∧
    (∀ (g : List Token) (i : Nat) (h : i < g.length),
      ((controlByte g).testBit i = true ↔ ∃ b, g.get ⟨i, h⟩ = Token.lit b) ∧
      ((controlByte g).testBit i = false ↔ ∃ p l, g.get ⟨i, h⟩ = Token.ref p l)) := by
  refine ⟨pack_eq, ?_⟩
  intro g i h
  have hb := controlByte_testBit g i h
  cases hg : g.get ⟨i, h⟩ with
  | lit b =>
    rw [hg] at hb
    simp only [tokenBit] at hb
    have ht : (controlByte g).testBit i = true := hb.mpr (by simp)
    refine ⟨⟨fun _ => ⟨b, rfl⟩, fun _ => ht⟩, ?_⟩
    rw [ht]
    constructor
    · intro hfalse
      simp at hfalse
    · rintro ⟨p, l, hpl⟩
      simp at hpl
  | ref p l =>
    rw [hg] at hb
    simp only [tokenBit] at hb
    have ht : (controlByte g).testBit i = false := by
      cases hcb : (controlByte g).testBit i
      · rfl
      · have h01 := hb.mp hcb
        simp at h01
    refine ⟨?_, ⟨fun _ => ⟨p, l, rfl⟩, fun _ => ht⟩⟩
    rw [ht]
    constructor
    · intro hfalse
      simp at hfalse
    · rintro ⟨b, hbl⟩
      simp at hbl

theorem claim_C4_control_byte_packing_witness :
    0 < ([Token.lit 7, Token.ref 100 5] : List Token).length ∧
    (((controlByte [Token.lit 7, Token.ref 100 5]).testBit 0 = true ↔
        ∃ b, Token.lit 7 = Token.lit b) ∧
      ((controlByte [Token.lit 7, Token.ref 100 5]).testBit 0 = false ↔
        ∃ p l, Token.lit 7 = Token.ref p l)) :=
  ⟨by decide, claim_C4_control_byte_packing.2 [Token.lit 7, Token.ref 100 5] 0 (by decide)⟩

end LZSS
